import Mathlib

/-!
Shallow embedding of the two core functions of the
CLIF_VAP_onset_prediction repository:

* `find_intubation_times` (src/helper.py): a DuckDB query that, per
  encounter, flags every recorded timestamp around which (inclusive
  symmetric RANGE window of `time_window` hours on either side) at least
  one IMV device row, one non-null mode, one non-null fio2 and one
  non-null peep row occur, and returns the distinct qualifying
  (encounter_block, recorded_dttm) pairs sorted ascending.

* `stitch_icu_stays` (src/icu_stitching.py): filters ADT rows to
  icu/stepdown locations, sorts per encounter by in_dttm, deduplicates,
  links consecutive segments whose gap (next in_dttm minus this out_dttm,
  in hours) is strictly below `gap_hours`, assigns group ids by seeding
  the positional id (index + 1) at the non-linked rows and backfilling
  (then forward-filling) within each encounter, aggregates min in_dttm /
  max out_dttm / last location_type per (encounter_block, icu_group),
  left-joins the aggregates back onto the per-segment table and finally
  assigns a dense per-encounter rank over (encounter_block, icu_group).

Embedding conventions:
* Timestamps are rationals measured in hours, so the pandas expression
  `(next_in_dttm - out_dttm).dt.total_seconds() / 3600` is the plain
  rational difference.
* `out_dttm` is `Option ℚ`: pandas `NaT` is `none`.  A `NaT` comparison
  is false (`NaT < gap_hours` in `linked6hrs`), and the `max` aggregate
  skips `NaT`, exactly as pandas does.  `in_dttm` is modelled non-null
  (a null `in_dttm` makes the source crash in `.astype(int)` before any
  stitching happens).
* `location_category` is `Option String`: `.str.lower()` of NaN is NaN
  and `.isin([...])` of NaN is False, so a null category row is dropped
  by the filter without an error.
* pandas `sort_values` is modelled as a stable sort (`sortRows`);
  `drop_duplicates` keeps the first occurrence (`dedupFirst`).
* The source's final `sort_values(['encounter_block','icu_rank',
  'icu_group'])` re-sorts a frame that is already in exactly that order
  (the frame is ordered by encounter and in_dttm, the initial rank is
  monotone in in_dttm within an encounter, and group ids are monotone in
  position), so it is the identity and the embedding keeps list order.
* The `groupby(...).transform(...bfill().ffill())` is per encounter, but
  every encounter's last row is non-linked (its shifted gap is NaN), so
  the backfill never crosses an encounter boundary and the forward fill
  never fires; the embedding (`groupIdsFrom`) backfills from the next
  non-linked row over the whole flag list, whose flags are false at
  every encounter change.
-/

namespace VapOnset

/-! ## Generic list machinery: stable sort, keep-first dedup -/

/-- One step of a stable insertion sort: `x` is placed after every
element strictly below it, hence after its ties. -/
def insertRow {α : Type} (lt : α → α → Bool) (x : α) : List α → List α
  | [] => [x]
  | y :: ys => if lt y x then y :: insertRow lt x ys else x :: y :: ys

/-- Stable insertion sort, modelling pandas `sort_values`. -/
def sortRows {α : Type} (lt : α → α → Bool) : List α → List α
  | [] => []
  | x :: xs => insertRow lt x (sortRows lt xs)

/-- Keep-first deduplication, modelling `drop_duplicates` and
`SELECT DISTINCT`. -/
def dedupFirst {α : Type} [DecidableEq α] : List α → List α
  | [] => []
  | x :: xs => x :: (dedupFirst xs).filter (fun y => decide (y ≠ x))

/-! ## Window Scanner: `find_intubation_times` (src/helper.py) -/

/-- One row of the ventilator table registered as `vent_data`. -/
structure VentRow where
  encounter_block : ℕ
  recorded_dttm : ℚ
  device_category : Option String
  mode_category : Option String
  fio2_set : Option ℚ
  peep_set : Option ℚ
  deriving DecidableEq, Repr

/-- Membership in the RANGE frame: same partition (encounter) and
`recorded_dttm` within the inclusive `[t - w, t + w]` interval. -/
def inWin (e : ℕ) (t w : ℚ) (r : VentRow) : Bool :=
  r.encounter_block == e && decide (t - w ≤ r.recorded_dttm) &&
    decide (r.recorded_dttm ≤ t + w)

/-- `CASE WHEN device_category = 'IMV' THEN 1 ELSE 0 END` (a null
`device_category` compares as not equal). -/
def hasIMV (r : VentRow) : Bool := r.device_category == some "IMV"

/-- The conjunction of the four windowed `MAX(...) = 1` flags at
partition `e`, window centre `t`, half-width `w`. -/
def qualifies (rows : List VentRow) (w : ℚ) (e : ℕ) (t : ℚ) : Bool :=
  let win := rows.filter (inWin e t w)
  win.any hasIMV && win.any (fun r => r.mode_category.isSome) &&
    win.any (fun r => r.fio2_set.isSome) &&
    win.any (fun r => r.peep_set.isSome)

/-- `ORDER BY encounter_block, recorded_dttm` comparison. -/
def pairLt (p q : ℕ × ℚ) : Bool :=
  decide (p.1 < q.1) || (p.1 == q.1 && decide (p.2 < q.2))

/-- The scanner: per-row windowed flags, `WHERE` on all four,
`SELECT DISTINCT`, `ORDER BY encounter_block, recorded_dttm`. -/
def find_intubation_times (rows : List VentRow) (time_window : ℚ) :
    List (ℕ × ℚ) :=
  sortRows pairLt (dedupFirst
    ((rows.filter
        (fun r => qualifies rows time_window r.encounter_block r.recorded_dttm)).map
      (fun r => (r.encounter_block, r.recorded_dttm))))

/-! ## Interval Stitcher: `stitch_icu_stays` (src/icu_stitching.py) -/

/-- One ADT row. -/
structure AdtRow where
  patient_id : ℕ
  encounter_block : ℕ
  hospitalization_id : ℕ
  in_dttm : ℚ
  out_dttm : Option ℚ
  location_category : Option String
  location_type : String
  deriving DecidableEq, Repr

/-- Per-character lower-casing of a string (pandas `.str.lower()`). -/
def strLower (s : String) : String := String.mk (s.data.map Char.toLower)

/-- Step 1 filter: `location_category.str.lower().isin(['icu','stepdown'])`;
NaN lower-cases to NaN and `isin` of NaN is False. -/
def isIcuRow (r : AdtRow) : Bool :=
  match r.location_category with
  | some s => decide (strLower s = "icu") || decide (strLower s = "stepdown")
  | none => false

/-- Sort key of `sort_values(['encounter_block', 'in_dttm'])`. -/
def rowLt (a b : AdtRow) : Bool :=
  decide (a.encounter_block < b.encounter_block) ||
    (a.encounter_block == b.encounter_block && decide (a.in_dttm < b.in_dttm))

/-- Steps 1-3: filter, stable sort by (encounter_block, in_dttm) (the
initial dense `icu_rank` orders rows exactly this way), drop exact
duplicates keeping the first. -/
def blocks (adt : List AdtRow) : List AdtRow :=
  dedupFirst (sortRows rowLt (adt.filter isIcuRow))

/-- `linked6hrs` for a row `r` whose successor inside the same encounter
is `s`: `(s.in_dttm - r.out_dttm) < gap_hours`, with a NaT `out_dttm`
producing NaN which compares false. -/
def linkedTo (gap_hours : ℚ) (r s : AdtRow) : Bool :=
  r.encounter_block == s.encounter_block &&
    match r.out_dttm with
    | some o => decide (s.in_dttm - o < gap_hours)
    | none => false

/-- The `linked6hrs` column: each row paired with its successor; the last
row of the list (and the last row of each encounter, via the encounter
guard in `linkedTo`) gets a NaN gap, hence false. -/
def linkFlags (gap_hours : ℚ) : List AdtRow → List Bool
  | [] => []
  | [_] => [false]
  | r :: s :: rest => linkedTo gap_hours r s :: linkFlags gap_hours (s :: rest)

/-- Group ids: `icu_group = index + 1`, masked to the non-linked rows,
then backfilled (each row takes the seed of the first non-linked row at
or after it).  The `headD` default is the forward fill, reachable only
after a trailing linked flag, which `linkFlags` never produces. -/
def groupIdsFrom (i : ℕ) : List Bool → List ℕ
  | [] => []
  | f :: fs =>
    (if f then (groupIdsFrom (i + 1) fs).headD (i + 1) else i + 1) ::
      groupIdsFrom (i + 1) fs

/-- The `icu_group` column of `icu_block`. -/
def stitchGids (adt : List AdtRow) (gap_hours : ℚ) : List ℕ :=
  groupIdsFrom 0 (linkFlags gap_hours (blocks adt))

/-- `icu_block` rows paired with their `icu_group`. -/
def stitchPairs (adt : List AdtRow) (gap_hours : ℚ) : List (AdtRow × ℕ) :=
  (blocks adt).zip (stitchGids adt gap_hours)

/-- The member segments of one `(encounter_block, icu_group)` group, in
frame order. -/
def membersOf (pairs : List (AdtRow × ℕ)) (e g : ℕ) : List AdtRow :=
  (pairs.filter (fun q => q.1.encounter_block == e && q.2 == g)).map
    (fun q => q.1)

/-- Minimum of a list of rationals (`aggfunc='min'` over a nonempty
group). -/
def minQ : List ℚ → Option ℚ
  | [] => none
  | x :: xs => some (xs.foldl min x)

/-- Maximum of a list of rationals. -/
def maxQ : List ℚ → Option ℚ
  | [] => none
  | x :: xs => some (xs.foldl max x)

/-- `in_dttm = min(in_dttm)` over the group members. -/
def minIn (l : List AdtRow) : Option ℚ := minQ (l.map (fun r => r.in_dttm))

/-- `out_dttm = max(out_dttm)` over the group members; pandas `max`
skips NaT, and is NaT when every member is NaT. -/
def maxOut (l : List AdtRow) : Option ℚ :=
  maxQ (l.filterMap (fun r => r.out_dttm))

/-- `location_type` aggregated with `aggfunc='last'`: the value of the
last member row in frame order. -/
def lastType (l : List AdtRow) : Option String :=
  (l.map (fun r => r.location_type)).getLast?

/-- Step 6 re-rank: `ngroup()` over the (encounter, group) keys followed
by a per-encounter dense rank is the number of distinct smaller group
ids inside the encounter, plus one. -/
def finalRank (pairs : List (AdtRow × ℕ)) (e g : ℕ) : ℕ :=
  (dedupFirst
      ((pairs.filter
          (fun q => q.1.encounter_block == e && decide (q.2 < g))).map
        (fun q => q.2))).length + 1

/-- One row of the returned frame `icu_adt_final`. -/
structure OutRow where
  encounter_block : ℕ
  icu_group : ℕ
  icu_rank : ℕ
  in_dttm : ℚ
  out_dttm : Option ℚ
  location_type : String
  deriving DecidableEq, Repr

/-- The left-join of one `icu_block` row with its group's aggregates.
The `getD` defaults are never used: the row itself is among its group's
members, so the group is nonempty. -/
def outOf (pairs : List (AdtRow × ℕ)) (p : AdtRow × ℕ) : OutRow :=
  let mem := membersOf pairs p.1.encounter_block p.2
  { encounter_block := p.1.encounter_block
    icu_group := p.2
    icu_rank := finalRank pairs p.1.encounter_block p.2
    in_dttm := (minIn mem).getD p.1.in_dttm
    out_dttm := maxOut mem
    location_type := (lastType mem).getD p.1.location_type }

/-- The stitcher: one output row per `icu_block` segment, carrying its
group's aggregates and the re-derived dense rank. -/
def stitch_icu_stays (adt : List AdtRow) (gap_hours : ℚ) : List OutRow :=
  (stitchPairs adt gap_hours).map (outOf (stitchPairs adt gap_hours))

/-- Forward run-length segmentation of a linked-flag list: the first row
opens group `c`; a linked row passes its group to the next row, a
non-linked row closes its group.  This is the spec's Step 5 formulation
of the group assignment (its group labels are the run counter rather
than the seed position, so only the induced partition is compared). -/
def runIdsFrom (c : ℕ) : List Bool → List ℕ
  | [] => []
  | f :: fs => c :: runIdsFrom (if f then c else c + 1) fs

/-- The spec-side group labels for the stitcher's rows. -/
def specRunIds (adt : List AdtRow) (gap_hours : ℚ) : List ℕ :=
  runIdsFrom 1 (linkFlags gap_hours (blocks adt))

/-! ## Lemmas about the generic list machinery -/

theorem perm_insertRow {α : Type} (lt : α → α → Bool) (x : α) :
    ∀ l : List α, (insertRow lt x l).Perm (x :: l)
  | [] => List.Perm.refl _
  | y :: ys => by
    simp only [insertRow]
    by_cases h : lt y x = true
    · simp only [h, if_true]
      exact ((perm_insertRow lt x ys).cons y).trans (List.Perm.swap x y ys)
    · simp [h]

theorem perm_sortRows {α : Type} (lt : α → α → Bool) :
    ∀ l : List α, (sortRows lt l).Perm l
  | [] => List.Perm.refl _
  | x :: xs =>
    (perm_insertRow lt x (sortRows lt xs)).trans ((perm_sortRows lt xs).cons x)

theorem mem_insertRow {α : Type} (lt : α → α → Bool) (x a : α) (l : List α) :
    a ∈ insertRow lt x l ↔ a = x ∨ a ∈ l := by
  rw [(perm_insertRow lt x l).mem_iff]
  simp

theorem pairwise_insertRow {α : Type} (lt : α → α → Bool)
    (hasym : ∀ a b, lt a b = true → lt b a = false)
    (hneg : ∀ a b c, lt b a = false → lt c b = false → lt c a = false)
    (x : α) :
    ∀ l : List α, l.Pairwise (fun a b => lt b a = false) →
      (insertRow lt x l).Pairwise (fun a b => lt b a = false)
  | [], _ => by simp [insertRow]
  | y :: ys, hl => by
    rcases List.pairwise_cons.mp hl with ⟨hy, hys⟩
    simp only [insertRow]
    by_cases h : lt y x = true
    · simp only [h, if_true]
      refine List.pairwise_cons.mpr ⟨?_, pairwise_insertRow lt hasym hneg x ys hys⟩
      intro b hb
      rcases (mem_insertRow lt x b ys).mp hb with hbx | hbm
      · rw [hbx]; exact hasym y x h
      · exact hy b hbm
    · have hfalse : lt y x = false := by
        cases hxy : lt y x
        · rfl
        · exact absurd hxy h
      simp only [hfalse, Bool.false_eq_true, if_false]
      refine List.pairwise_cons.mpr ⟨?_, hl⟩
      intro b hb
      rcases List.mem_cons.mp hb with hby | hbm
      · rw [hby]; exact hfalse
      · exact hneg x y b hfalse (hy b hbm)

theorem pairwise_sortRows {α : Type} (lt : α → α → Bool)
    (hasym : ∀ a b, lt a b = true → lt b a = false)
    (hneg : ∀ a b c, lt b a = false → lt c b = false → lt c a = false) :
    ∀ l : List α, (sortRows lt l).Pairwise (fun a b => lt b a = false)
  | [] => List.Pairwise.nil
  | x :: xs =>
    pairwise_insertRow lt hasym hneg x (sortRows lt xs)
      (pairwise_sortRows lt hasym hneg xs)

theorem dedupFirst_sublist {α : Type} [DecidableEq α] :
    ∀ l : List α, List.Sublist (dedupFirst l) l
  | [] => List.Sublist.refl _
  | x :: xs => by
    simp only [dedupFirst]
    exact List.Sublist.cons₂ x
      ((List.filter_sublist (dedupFirst xs)).trans (dedupFirst_sublist xs))

theorem mem_dedupFirst {α : Type} [DecidableEq α] (a : α) :
    ∀ l : List α, a ∈ dedupFirst l ↔ a ∈ l
  | [] => Iff.rfl
  | x :: xs => by
    simp only [dedupFirst, List.mem_cons, List.mem_filter,
      mem_dedupFirst a xs, decide_eq_true_iff]
    by_cases hax : a = x
    · subst hax; tauto
    · tauto

theorem nodup_dedupFirst {α : Type} [DecidableEq α] :
    ∀ l : List α, (dedupFirst l).Nodup
  | [] => List.nodup_nil
  | x :: xs => by
    simp only [dedupFirst]
    refine List.nodup_cons.mpr ⟨?_, (nodup_dedupFirst xs).filter _⟩
    intro hx
    rcases List.mem_filter.mp hx with ⟨_, hne⟩
    exact absurd rfl (decide_eq_true_iff.mp hne)

theorem pairwise_dedupFirst {α : Type} [DecidableEq α] {R : α → α → Prop}
    {l : List α} (h : l.Pairwise R) : (dedupFirst l).Pairwise R :=
  h.sublist (dedupFirst_sublist l)

theorem filter_dedupFirst {α : Type} [DecidableEq α] (p : α → Bool) :
    ∀ l : List α, dedupFirst (l.filter p) = (dedupFirst l).filter p
  | [] => rfl
  | x :: xs => by
    by_cases hx : p x = true
    · simp only [List.filter_cons, hx, if_true, dedupFirst,
        filter_dedupFirst p xs]
      rw [List.filter_filter, List.filter_filter]
      congr 1
      apply List.filter_congr
      intro a _
      cases hpa : p a <;> cases hne : (decide (a ≠ x)) <;> simp
    · have hx0 : p x = false := by
        cases h : p x
        · rfl
        · exact absurd h hx
      simp only [List.filter_cons, hx0, Bool.false_eq_true, if_false,
        filter_dedupFirst p xs, dedupFirst]
      rw [List.filter_filter]
      apply List.filter_congr
      intro a _
      by_cases hax : a = x
      · subst hax; simp [hx0]
      · simp [hax]

/-! ## Lemmas about the Window Scanner -/

theorem pairLt_iff (p q : ℕ × ℚ) :
    pairLt p q = true ↔ (p.1 < q.1 ∨ (p.1 = q.1 ∧ p.2 < q.2)) := by
  simp [pairLt]

theorem pairLt_false_iff (p q : ℕ × ℚ) :
    pairLt p q = false ↔ (q.1 < p.1 ∨ (q.1 = p.1 ∧ q.2 ≤ p.2)) := by
  rw [← Bool.not_eq_true, pairLt_iff]
  constructor
  · intro h
    rcases Nat.lt_trichotomy p.1 q.1 with h1 | h1 | h1
    · exact absurd (Or.inl h1) h
    · refine Or.inr ⟨h1.symm, ?_⟩
      by_contra hq
      exact h (Or.inr ⟨h1, lt_of_not_le hq⟩)
    · exact Or.inl h1
  · intro h hcon
    rcases h with h | ⟨he, hle⟩
    · rcases hcon with h1 | ⟨h1, _⟩
      · exact absurd h1 (Nat.lt_asymm h)
      · exact absurd h1.symm (Nat.ne_of_lt h)
    · rcases hcon with h1 | ⟨_, h2⟩
      · exact absurd h1 (by omega)
      · exact absurd h2 (not_lt_of_le hle)

theorem pairLt_asymm (p q : ℕ × ℚ) (h : pairLt p q = true) :
    pairLt q p = false := by
  rw [pairLt_iff] at h
  rw [pairLt_false_iff]
  rcases h with h | ⟨he, hl⟩
  · exact Or.inl h
  · exact Or.inr ⟨he, le_of_lt hl⟩

theorem pairLt_negTrans (p q s : ℕ × ℚ) (h1 : pairLt q p = false)
    (h2 : pairLt s q = false) : pairLt s p = false := by
  rw [pairLt_false_iff] at h1 h2 ⊢
  rcases h1 with h1 | ⟨h1e, h1l⟩ <;> rcases h2 with h2 | ⟨h2e, h2l⟩
  · exact Or.inl (h1.trans h2)
  · exact Or.inl (by omega)
  · exact Or.inl (by omega)
  · exact Or.inr ⟨by omega, h1l.trans h2l⟩

theorem pairLt_total (p q : ℕ × ℚ) (h1 : pairLt p q = false)
    (h2 : pairLt q p = false) : p = q := by
  rw [pairLt_false_iff] at h1 h2
  have he : p.1 = q.1 := by omega
  have hr : p.2 = q.2 := by
    rcases h1 with h1 | ⟨_, h1⟩ <;> rcases h2 with h2 | ⟨_, h2⟩ <;>
      first
        | omega
        | exact le_antisymm h2 h1
  calc p = (p.1, p.2) := rfl
    _ = (q.1, q.2) := by rw [he, hr]
    _ = q := rfl

theorem inWin_iff (e : ℕ) (t w : ℚ) (r : VentRow) :
    inWin e t w r = true ↔
      (r.encounter_block = e ∧ t - w ≤ r.recorded_dttm ∧
        r.recorded_dttm ≤ t + w) := by
  simp [inWin, and_assoc]

theorem qualifies_iff (rows : List VentRow) (w : ℚ) (e : ℕ) (t : ℚ) :
    qualifies rows w e t = true ↔
      ((∃ r ∈ rows, r.encounter_block = e ∧ t - w ≤ r.recorded_dttm ∧
          r.recorded_dttm ≤ t + w ∧ r.device_category = some "IMV") ∧
        (∃ r ∈ rows, r.encounter_block = e ∧ t - w ≤ r.recorded_dttm ∧
          r.recorded_dttm ≤ t + w ∧ r.mode_category.isSome = true) ∧
        (∃ r ∈ rows, r.encounter_block = e ∧ t - w ≤ r.recorded_dttm ∧
          r.recorded_dttm ≤ t + w ∧ r.fio2_set.isSome = true) ∧
        (∃ r ∈ rows, r.encounter_block = e ∧ t - w ≤ r.recorded_dttm ∧
          r.recorded_dttm ≤ t + w ∧ r.peep_set.isSome = true)) := by
  simp only [qualifies, Bool.and_eq_true, List.any_eq_true, List.mem_filter,
    inWin_iff, hasIMV, beq_iff_eq, and_assoc]

theorem mem_find_iff (rows : List VentRow) (w : ℚ) (e : ℕ) (t : ℚ) :
    (e, t) ∈ find_intubation_times rows w ↔
      ((∃ r ∈ rows, r.encounter_block = e ∧ r.recorded_dttm = t) ∧
        qualifies rows w e t = true) := by
  unfold find_intubation_times
  rw [(perm_sortRows pairLt _).mem_iff, mem_dedupFirst]
  simp only [List.mem_map, List.mem_filter, Prod.mk.injEq]
  constructor
  · rintro ⟨r, ⟨hr, hq⟩, he, ht⟩
    subst he; subst ht
    exact ⟨⟨r, hr, rfl, rfl⟩, hq⟩
  · rintro ⟨⟨r, hr, he, ht⟩, hq⟩
    subst he; subst ht
    exact ⟨r, ⟨hr, hq⟩, rfl, rfl⟩

theorem find_sorted (rows : List VentRow) (w : ℚ) :
    (find_intubation_times rows w).Pairwise (fun p q => pairLt p q = true) := by
  have hsorted :
      (find_intubation_times rows w).Pairwise
        (fun p q => pairLt q p = false) :=
    pairwise_sortRows pairLt pairLt_asymm pairLt_negTrans _
  have hnodup : (find_intubation_times rows w).Nodup :=
    ((perm_sortRows pairLt _).nodup_iff).mpr (nodup_dedupFirst _)
  have hboth := hsorted.and hnodup
  refine hboth.imp ?_
  intro p q hpq
  rcases hpq with ⟨hfalse, hne⟩
  cases h : pairLt p q
  · exact absurd (pairLt_total p q h hfalse) hne
  · rfl

theorem qualifies_mono (rows : List VentRow) (w1 w2 : ℚ) (e : ℕ) (t : ℚ)
    (hle : w1 ≤ w2) (h : qualifies rows w1 e t = true) :
    qualifies rows w2 e t = true := by
  rw [qualifies_iff] at h ⊢
  have widen : ∀ r : VentRow,
      (t - w1 ≤ r.recorded_dttm ∧ r.recorded_dttm ≤ t + w1) →
        (t - w2 ≤ r.recorded_dttm ∧ r.recorded_dttm ≤ t + w2) := by
    intro r hr
    constructor
    · linarith [hr.1]
    · linarith [hr.2]
  obtain ⟨⟨r1, hm1, he1, ha1, hb1, hd1⟩, ⟨r2, hm2, he2, ha2, hb2, hd2⟩,
    ⟨r3, hm3, he3, ha3, hb3, hd3⟩, ⟨r4, hm4, he4, ha4, hb4, hd4⟩⟩ := h
  exact ⟨⟨r1, hm1, he1, (widen r1 ⟨ha1, hb1⟩).1, (widen r1 ⟨ha1, hb1⟩).2, hd1⟩,
    ⟨r2, hm2, he2, (widen r2 ⟨ha2, hb2⟩).1, (widen r2 ⟨ha2, hb2⟩).2, hd2⟩,
    ⟨r3, hm3, he3, (widen r3 ⟨ha3, hb3⟩).1, (widen r3 ⟨ha3, hb3⟩).2, hd3⟩,
    ⟨r4, hm4, he4, (widen r4 ⟨ha4, hb4⟩).1, (widen r4 ⟨ha4, hb4⟩).2, hd4⟩⟩

/-- Claim C4: `find_intubation_times` returns exactly the distinct
(encounter_block, recorded_dttm) pairs present in the input such that
the encounter's rows inside the closed window
`[t - window_hours, t + window_hours]` include at least one
`device_category = "IMV"` row, one non-null `mode_category`, one
non-null `fio2_set` and one non-null `peep_set` (possibly different
rows); the output is deduplicated and sorted strictly ascending by
(encounter_block, recorded_dttm), and rows at exactly `window_hours`
distance are inside the window (the interval bounds are inclusive). -/
theorem c4_scan_characterization (rows : List VentRow) (w : ℚ) (e : ℕ)
    (t : ℚ) :
    ((e, t) ∈ find_intubation_times rows w ↔
      ((∃ r ∈ rows, r.encounter_block = e ∧ r.recorded_dttm = t) ∧
        (∃ r ∈ rows, r.encounter_block = e ∧ t - w ≤ r.recorded_dttm ∧
          r.recorded_dttm ≤ t + w ∧ r.device_category = some "IMV") ∧
        (∃ r ∈ rows, r.encounter_block = e ∧ t - w ≤ r.recorded_dttm ∧
          r.recorded_dttm ≤ t + w ∧ r.mode_category.isSome = true) ∧
        (∃ r ∈ rows, r.encounter_block = e ∧ t - w ≤ r.recorded_dttm ∧
          r.recorded_dttm ≤ t + w ∧ r.fio2_set.isSome = true) ∧
        (∃ r ∈ rows, r.encounter_block = e ∧ t - w ≤ r.recorded_dttm ∧
          r.recorded_dttm ≤ t + w ∧ r.peep_set.isSome = true))) ∧
      (find_intubation_times rows w).Pairwise
        (fun p q => pairLt p q = true) := by
  constructor
  · rw [mem_find_iff, qualifies_iff]
  · exact find_sorted rows w

/-- Claim C8: enlarging the window never removes a qualifying
timepoint: every pair emitted at window `w1` is emitted at any window
`w2 ≥ w1` (with both positive as in the source contract). -/
theorem c8_scan_window_monotone (rows : List VentRow) (w1 w2 : ℚ) (e : ℕ)
    (t : ℚ) (hpos : 0 < w1) (hle : w1 ≤ w2)
    (hmem : (e, t) ∈ find_intubation_times rows w1) :
    (e, t) ∈ find_intubation_times rows w2 := by
  rw [mem_find_iff] at hmem ⊢
  exact ⟨hmem.1, qualifies_mono rows w1 w2 e t hle hmem.2⟩

/-- Witness for C8 at a one-row table: the row qualifies at window 1,
so by monotonicity it qualifies at window 2. -/
theorem c8_scan_window_monotone_witness :
    ((1 : ℕ), (0 : ℚ)) ∈ find_intubation_times
      [⟨1, 0, some "IMV", some "AC", some 40, some 5⟩] 2 :=
  c8_scan_window_monotone [⟨1, 0, some "IMV", some "AC", some 40, some 5⟩]
    1 2 1 0 (by norm_num) (by norm_num)
    (by
      norm_num [find_intubation_times, qualifies, inWin, hasIMV, sortRows,
        insertRow, dedupFirst])

/-! ## Positional lemmas about flags and group ids -/

theorem length_groupIdsFrom (n : ℕ) :
    ∀ fs : List Bool, (groupIdsFrom n fs).length = fs.length
  | [] => rfl
  | f :: fs => by
    simp [groupIdsFrom, length_groupIdsFrom (n + 1) fs]

theorem lt_of_mem_groupIdsFrom :
    ∀ (fs : List Bool) (n g : ℕ), g ∈ groupIdsFrom n fs → n < g
  | [], n, g => by simp [groupIdsFrom]
  | f :: fs, n, g => by
    simp only [groupIdsFrom, List.mem_cons]
    intro h
    rcases h with h | h
    · subst h
      by_cases hf : f = true
      · simp only [hf, if_true]
        cases hrec : groupIdsFrom (n + 1) fs with
        | nil => simp
        | cons a rest =>
          have ha : a ∈ groupIdsFrom (n + 1) fs := by
            rw [hrec]; exact List.mem_cons_self a rest
          have := lt_of_mem_groupIdsFrom fs (n + 1) a ha
          simp only [List.headD_cons]
          omega
      · have hf0 : f = false := by
          cases f
          · rfl
          · exact absurd rfl hf
        simp [hf0]
    · exact Nat.lt_trans (Nat.lt_succ_self n)
        (lt_of_mem_groupIdsFrom fs (n + 1) g h)

theorem groupIdsFrom_adj_true :
    ∀ (fs : List Bool) (n k x y : ℕ),
      (groupIdsFrom n fs)[k]? = some x → (groupIdsFrom n fs)[k + 1]? = some y →
      fs[k]? = some true → x = y
  | [], _, _, _, _ => by simp [groupIdsFrom]
  | f :: fs, n, 0, x, y => by
    simp only [groupIdsFrom, List.getElem?_cons_zero, List.getElem?_cons_succ,
      Option.some.injEq]
    intro hx hy hf
    subst hf
    simp only [if_true] at hx
    cases hrec : groupIdsFrom (n + 1) fs with
    | nil => rw [hrec] at hy; simp at hy
    | cons a rest =>
      rw [hrec] at hx hy
      simp only [List.headD_cons, List.getElem?_cons_zero,
        Option.some.injEq] at hx hy
      omega
  | f :: fs, n, k + 1, x, y => by
    simp only [groupIdsFrom, List.getElem?_cons_succ]
    intro hx hy hf
    exact groupIdsFrom_adj_true fs (n + 1) k x y hx hy hf

theorem groupIdsFrom_adj_false :
    ∀ (fs : List Bool) (n k x y : ℕ),
      (groupIdsFrom n fs)[k]? = some x → (groupIdsFrom n fs)[k + 1]? = some y →
      fs[k]? = some false → x < y
  | [], _, _, _, _ => by simp [groupIdsFrom]
  | f :: fs, n, 0, x, y => by
    simp only [groupIdsFrom, List.getElem?_cons_zero, List.getElem?_cons_succ,
      Option.some.injEq]
    intro hx hy hf
    subst hf
    simp only [Bool.false_eq_true, if_false] at hx
    have hymem : y ∈ groupIdsFrom (n + 1) fs := List.getElem?_mem hy
    have := lt_of_mem_groupIdsFrom fs (n + 1) y hymem
    omega
  | f :: fs, n, k + 1, x, y => by
    simp only [groupIdsFrom, List.getElem?_cons_succ]
    intro hx hy hf
    exact groupIdsFrom_adj_false fs (n + 1) k x y hx hy hf

theorem length_runIdsFrom (c : ℕ) :
    ∀ fs : List Bool, (runIdsFrom c fs).length = fs.length
  | [] => rfl
  | f :: fs => by
    simp only [runIdsFrom, List.length_cons]
    rw [length_runIdsFrom (if f then c else c + 1) fs]

theorem runIdsFrom_adj_true :
    ∀ (fs : List Bool) (c k x y : ℕ),
      (runIdsFrom c fs)[k]? = some x → (runIdsFrom c fs)[k + 1]? = some y →
      fs[k]? = some true → x = y
  | [], _, _, _, _ => by simp [runIdsFrom]
  | f :: fs, c, 0, x, y => by
    simp only [runIdsFrom, List.getElem?_cons_zero, List.getElem?_cons_succ,
      Option.some.injEq]
    intro hx hy hf
    subst hf
    simp only [if_true] at hy
    cases fs with
    | nil => simp [runIdsFrom] at hy
    | cons f2 fs2 =>
      simp only [runIdsFrom, List.getElem?_cons_zero, Option.some.injEq] at hy
      omega
  | f :: fs, c, k + 1, x, y => by
    simp only [runIdsFrom, List.getElem?_cons_succ]
    intro hx hy hf
    exact runIdsFrom_adj_true fs (if f then c else c + 1) k x y hx hy hf

theorem runIdsFrom_adj_false :
    ∀ (fs : List Bool) (c k x y : ℕ),
      (runIdsFrom c fs)[k]? = some x → (runIdsFrom c fs)[k + 1]? = some y →
      fs[k]? = some false → x < y
  | [], _, _, _, _ => by simp [runIdsFrom]
  | f :: fs, c, 0, x, y => by
    simp only [runIdsFrom, List.getElem?_cons_zero, List.getElem?_cons_succ,
      Option.some.injEq]
    intro hx hy hf
    subst hf
    simp only [Bool.false_eq_true, if_false] at hy
    cases fs with
    | nil => simp [runIdsFrom] at hy
    | cons f2 fs2 =>
      simp only [runIdsFrom, List.getElem?_cons_zero, Option.some.injEq] at hy
      omega
  | f :: fs, c, k + 1, x, y => by
    simp only [runIdsFrom, List.getElem?_cons_succ]
    intro hx hy hf
    exact runIdsFrom_adj_false fs (if f then c else c + 1) k x y hx hy hf

theorem length_linkFlags (gap_hours : ℚ) :
    ∀ l : List AdtRow, (linkFlags gap_hours l).length = l.length
  | [] => rfl
  | [_] => rfl
  | r :: s :: rest => by
    simp only [linkFlags, List.length_cons]
    rw [length_linkFlags gap_hours (s :: rest)]
    simp

theorem linkFlags_getElem (gap_hours : ℚ) :
    ∀ (l : List AdtRow) (k : ℕ) (r s : AdtRow),
      l[k]? = some r → l[k + 1]? = some s →
      (linkFlags gap_hours l)[k]? = some (linkedTo gap_hours r s)
  | [], _, _, _ => by simp
  | [_], k, r, s => by
    cases k <;> simp
  | a :: b :: rest, 0, r, s => by
    simp only [List.getElem?_cons_zero, List.getElem?_cons_succ,
      Option.some.injEq, linkFlags]
    intro hr hs
    rw [hr, hs]
  | a :: b :: rest, k + 1, r, s => by
    intro hr hs
    rw [List.getElem?_cons_succ] at hr hs
    simp only [linkFlags, List.getElem?_cons_succ]
    exact linkFlags_getElem gap_hours (b :: rest) k r s hr hs

/-! ## The segmentation partition lemma -/

theorem seg_mono (a : List ℕ) (fs : List Bool)
    (hadj_t : ∀ k x y, a[k]? = some x → a[k + 1]? = some y →
      fs[k]? = some true → x = y)
    (hadj_f : ∀ k x y, a[k]? = some x → a[k + 1]? = some y →
      fs[k]? = some false → x < y)
    (hlen : a.length ≤ fs.length) :
    ∀ (d i x y : ℕ), a[i]? = some x → a[i + d]? = some y → x ≤ y := by
  intro d
  induction d with
  | zero =>
    intro i x y hx hy
    rw [Nat.add_zero] at hy
    rw [hx] at hy
    exact le_of_eq (Option.some.inj hy)
  | succ d ih =>
    intro i x y hx hy
    have hylt : i + d + 1 < a.length := (List.getElem?_eq_some.mp
      (by rw [← Nat.add_assoc] at hy; exact hy)).1
    have hzlt : i + d < a.length := by omega
    have hz : a[i + d]? = some a[i + d] := List.getElem?_eq_getElem hzlt
    have hxz : x ≤ a[i + d] := ih i x a[i + d] hx hz
    have hflt : i + d < fs.length := by omega
    have hf : fs[i + d]? = some fs[i + d] := List.getElem?_eq_getElem hflt
    have hy2 : a[(i + d) + 1]? = some y := by rw [← Nat.add_assoc] at hy; exact hy
    cases hfv : fs[i + d] with
    | true =>
      have := hadj_t (i + d) a[i + d] y hz hy2 (by rw [hf, hfv])
      omega
    | false =>
      have := hadj_f (i + d) a[i + d] y hz hy2 (by rw [hf, hfv])
      omega

theorem seg_eq_iff (a : List ℕ) (fs : List Bool)
    (hadj_t : ∀ k x y, a[k]? = some x → a[k + 1]? = some y →
      fs[k]? = some true → x = y)
    (hadj_f : ∀ k x y, a[k]? = some x → a[k + 1]? = some y →
      fs[k]? = some false → x < y)
    (hlen : a.length ≤ fs.length) :
    ∀ (d i x y : ℕ), a[i]? = some x → a[i + d]? = some y →
      (x = y ↔ ∀ k, i ≤ k → k < i + d → fs[k]? = some true) := by
  intro d
  induction d with
  | zero =>
    intro i x y hx hy
    rw [Nat.add_zero] at hy
    rw [hx] at hy
    constructor
    · intro _ k hk1 hk2
      exact absurd hk2 (by omega)
    · intro _
      exact Option.some.inj hy
  | succ d ih =>
    intro i x y hx hy
    have hylt : i + d + 1 < a.length := (List.getElem?_eq_some.mp
      (by rw [← Nat.add_assoc] at hy; exact hy)).1
    have hzlt : i + d < a.length := by omega
    have hz : a[i + d]? = some a[i + d] := List.getElem?_eq_getElem hzlt
    have hflt : i + d < fs.length := by omega
    have hf : fs[i + d]? = some fs[i + d] := List.getElem?_eq_getElem hflt
    have hy2 : a[(i + d) + 1]? = some y := by rw [← Nat.add_assoc] at hy; exact hy
    have hih := ih i x a[i + d] hx hz
    cases hfv : fs[i + d] with
    | true =>
      have hzy : a[i + d] = y :=
        hadj_t (i + d) a[i + d] y hz hy2 (by rw [hf, hfv])
      rw [← hzy]
      rw [hih]
      constructor
      · intro hall k hk1 hk2
        by_cases hkd : k < i + d
        · exact hall k hk1 hkd
        · have : k = i + d := by omega
          subst this
          rw [hf, hfv]
      · intro hall k hk1 hk2
        exact hall k hk1 (by omega)
    | false =>
      have hzy : a[i + d] < y :=
        hadj_f (i + d) a[i + d] y hz hy2 (by rw [hf, hfv])
      have hxz : x ≤ a[i + d] :=
        seg_mono a fs hadj_t hadj_f hlen d i x a[i + d] hx hz
      constructor
      · intro hxy
        omega
      · intro hall
        have := hall (i + d) (by omega) (by omega)
        rw [hf] at this
        rw [hfv] at this
        simp at this

/-! ## Concrete rows used by witnesses and counterexamples -/

/-- Two linkable segments of one encounter (gap 1 hour). -/
def rowA : AdtRow := ⟨0, 1, 0, 0, some 1, some "icu", "a"⟩

/-- Successor of `rowA`, 1 hour after it. -/
def rowB : AdtRow := ⟨0, 1, 0, 2, some 3, some "icu", "b"⟩

/-- A long first segment that swallows a later one. -/
def rowO1 : AdtRow := ⟨0, 1, 0, 0, some 100, some "icu", "a"⟩

/-- A short segment inside `rowO1`. -/
def rowO2 : AdtRow := ⟨0, 1, 0, 1, some 2, some "icu", "b"⟩

/-- A segment overlapped by `rowO1` but 48 hours after `rowO2` ends. -/
def rowO3 : AdtRow := ⟨0, 1, 0, 50, some 60, some "icu", "c"⟩

/-- A zero-length segment. -/
def rowT1 : AdtRow := ⟨0, 1, 0, 5, some 5, some "icu", "d"⟩

/-- A distinct zero-length segment at the same instant (it differs from
`rowT1` in `hospitalization_id`, so deduplication keeps both). -/
def rowT2 : AdtRow := ⟨0, 1, 7, 5, some 5, some "icu", "e"⟩

/-- A segment with a null (NaT) `out_dttm`. -/
def rowN : AdtRow := ⟨0, 1, 0, 5, none, some "icu", "x"⟩

/-! ## Claims C5 and C6: link decision and group assignment -/

/-- Claim C6: the source's bidirectional fill (group ids seeded at the
non-linked rows as position + 1, then backfilled and forward-filled per
encounter) induces the same partition of the stitched segments as the
spec's forward run-length segmentation, and two adjacent rows share a
group iff the earlier row is linked. -/
theorem c6_fill_equiv_forward (adt : List AdtRow) (gap_hours : ℚ)
    (i j gi gj ri rj : ℕ)
    (hgi : (stitchGids adt gap_hours)[i]? = some gi)
    (hgj : (stitchGids adt gap_hours)[j]? = some gj)
    (hri : (specRunIds adt gap_hours)[i]? = some ri)
    (hrj : (specRunIds adt gap_hours)[j]? = some rj) :
    (gi = gj ↔ ri = rj) ∧
      (j = i + 1 →
        ((linkFlags gap_hours (blocks adt))[i]? = some true ↔ gi = gj)) := by
  have hglen : (stitchGids adt gap_hours).length =
      (linkFlags gap_hours (blocks adt)).length :=
    length_groupIdsFrom 0 _
  have hrlen : (specRunIds adt gap_hours).length =
      (linkFlags gap_hours (blocks adt)).length :=
    length_runIdsFrom 1 _
  have hgseg := seg_eq_iff (stitchGids adt gap_hours)
    (linkFlags gap_hours (blocks adt))
    (fun k x y => groupIdsFrom_adj_true (linkFlags gap_hours (blocks adt)) 0 k x y)
    (fun k x y => groupIdsFrom_adj_false (linkFlags gap_hours (blocks adt)) 0 k x y)
    (le_of_eq hglen)
  have hrseg := seg_eq_iff (specRunIds adt gap_hours)
    (linkFlags gap_hours (blocks adt))
    (fun k x y => runIdsFrom_adj_true (linkFlags gap_hours (blocks adt)) 1 k x y)
    (fun k x y => runIdsFrom_adj_false (linkFlags gap_hours (blocks adt)) 1 k x y)
    (le_of_eq hrlen)
  constructor
  · rcases Nat.le_total i j with hij | hij
    · obtain ⟨d, rfl⟩ : ∃ d, j = i + d := ⟨j - i, by omega⟩
      rw [hgseg d i gi gj hgi hgj, hrseg d i ri rj hri hrj]
    · obtain ⟨d, rfl⟩ : ∃ d, i = j + d := ⟨i - j, by omega⟩
      rw [eq_comm, hgseg d j gj gi hgj hgi, eq_comm (a := ri),
        hrseg d j rj ri hrj hri]
  · intro hj
    subst hj
    rw [hgseg 1 i gi gj hgi hgj]
    constructor
    · intro hflag k hk1 hk2
      have : k = i := by omega
      subst this
      exact hflag
    · intro hall
      exact hall i (le_refl i) (by omega)

/-- Witness for C6 on the two-row example: both rows merge into one
group, matching the forward segmentation. -/
theorem c6_fill_equiv_forward_witness :
    ((2 : ℕ) = 2 ↔ (1 : ℕ) = 1) ∧
      (1 = 0 + 1 →
        ((linkFlags 6 (blocks [rowA, rowB]))[0]? = some true ↔ (2 : ℕ) = 2)) :=
  c6_fill_equiv_forward [rowA, rowB] 6 0 1 2 2 1 1
    (by norm_num [stitchGids, blocks, sortRows, insertRow, dedupFirst, rowLt,
      isIcuRow, strLower, linkFlags, linkedTo, groupIdsFrom, rowA, rowB])
    (by norm_num [stitchGids, blocks, sortRows, insertRow, dedupFirst, rowLt,
      isIcuRow, strLower, linkFlags, linkedTo, groupIdsFrom, rowA, rowB])
    (by norm_num [specRunIds, blocks, sortRows, insertRow, dedupFirst, rowLt,
      isIcuRow, strLower, linkFlags, linkedTo, runIdsFrom, rowA, rowB])
    (by norm_num [specRunIds, blocks, sortRows, insertRow, dedupFirst, rowLt,
      isIcuRow, strLower, linkFlags, linkedTo, runIdsFrom, rowA, rowB])

/-- Claim C5: two consecutive segments of an encounter end up in the
same group iff their gap `next.in_dttm - this.out_dttm` is strictly
below `gap_hours` (so a gap exactly equal to the threshold does not
link), and when the gap is zero (`out1 = in2`) they merge iff
`gap_hours` is positive. -/
theorem c5_link_decision (adt : List AdtRow) (gap_hours : ℚ) (i : ℕ)
    (r s : AdtRow) (gi gj : ℕ) (o : ℚ)
    (hr : (blocks adt)[i]? = some r) (hs : (blocks adt)[i + 1]? = some s)
    (hgi : (stitchGids adt gap_hours)[i]? = some gi)
    (hgj : (stitchGids adt gap_hours)[i + 1]? = some gj)
    (henc : r.encounter_block = s.encounter_block)
    (ho : r.out_dttm = some o) :
    (gi = gj ↔ s.in_dttm - o < gap_hours) ∧
      (s.in_dttm = o → (gi = gj ↔ 0 < gap_hours)) := by
  have hflag : (linkFlags gap_hours (blocks adt))[i]? =
      some (linkedTo gap_hours r s) :=
    linkFlags_getElem gap_hours (blocks adt) i r s hr hs
  have hlink : linkedTo gap_hours r s =
      decide (s.in_dttm - o < gap_hours) := by
    simp [linkedTo, henc, ho]
  have hmain : gi = gj ↔ s.in_dttm - o < gap_hours := by
    cases hval : decide (s.in_dttm - o < gap_hours) with
    | true =>
      have heq : gi = gj :=
        groupIdsFrom_adj_true (linkFlags gap_hours (blocks adt)) 0 i gi gj
          hgi hgj (by rw [hflag, hlink, hval])
      simp only [heq, true_iff]
      exact of_decide_eq_true hval
    | false =>
      have hlt : gi < gj :=
        groupIdsFrom_adj_false (linkFlags gap_hours (blocks adt)) 0 i gi gj
          hgi hgj (by rw [hflag, hlink, hval])
      constructor
      · intro h
        omega
      · intro h
        exact absurd h (of_decide_eq_false hval)
  refine ⟨hmain, ?_⟩
  intro hzero
  rw [hmain, hzero, sub_self]

/-- Witness for C5 on the two-row example: the 1-hour gap is below the
6-hour threshold, so the rows share the group. -/
theorem c5_link_decision_witness :
    ((2 : ℕ) = 2 ↔ rowB.in_dttm - 1 < 6) ∧
      (rowB.in_dttm = 1 → ((2 : ℕ) = 2 ↔ (0 : ℚ) < 6)) :=
  c5_link_decision [rowA, rowB] 6 0 rowA rowB 2 2 1
    (by norm_num [blocks, sortRows, insertRow, dedupFirst, rowLt, isIcuRow,
      strLower, rowA, rowB])
    (by norm_num [blocks, sortRows, insertRow, dedupFirst, rowLt, isIcuRow,
      strLower, rowA, rowB])
    (by norm_num [stitchGids, blocks, sortRows, insertRow, dedupFirst, rowLt,
      isIcuRow, strLower, linkFlags, linkedTo, groupIdsFrom, rowA, rowB])
    (by norm_num [stitchGids, blocks, sortRows, insertRow, dedupFirst, rowLt,
      isIcuRow, strLower, linkFlags, linkedTo, groupIdsFrom, rowA, rowB])
    (by norm_num [rowA, rowB])
    (by norm_num [rowA])

/-! ## Order of the stitched frame -/

/-- The (encounter_block, in_dttm) lexicographic order the frame is
sorted by. -/
def rowLe (a b : AdtRow) : Prop :=
  a.encounter_block < b.encounter_block ∨
    (a.encounter_block = b.encounter_block ∧ a.in_dttm ≤ b.in_dttm)

theorem rowLt_false_iff (a b : AdtRow) : rowLt a b = false ↔ rowLe b a := by
  rw [← Bool.not_eq_true]
  simp only [rowLt, Bool.or_eq_true, Bool.and_eq_true, decide_eq_true_iff,
    beq_iff_eq, rowLe]
  constructor
  · intro h
    rcases Nat.lt_trichotomy a.encounter_block b.encounter_block with h1 | h1 | h1
    · exact absurd (Or.inl h1) h
    · refine Or.inr ⟨h1.symm, ?_⟩
      by_contra hq
      exact h (Or.inr ⟨h1, lt_of_not_le hq⟩)
    · exact Or.inl h1
  · intro h hcon
    rcases h with h | ⟨he, hle⟩
    · rcases hcon with h1 | ⟨h1, _⟩
      · exact absurd h1 (Nat.lt_asymm h)
      · omega
    · rcases hcon with h1 | ⟨_, h2⟩
      · omega
      · exact absurd h2 (not_lt_of_le hle)

theorem rowLt_asymm (a b : AdtRow) (h : rowLt a b = true) :
    rowLt b a = false := by
  rw [rowLt_false_iff]
  simp only [rowLt, Bool.or_eq_true, Bool.and_eq_true, decide_eq_true_iff,
    beq_iff_eq] at h
  rcases h with h | ⟨he, hl⟩
  · exact Or.inl h
  · exact Or.inr ⟨he, le_of_lt hl⟩

theorem rowLt_negTrans (a b c : AdtRow) (h1 : rowLt b a = false)
    (h2 : rowLt c b = false) : rowLt c a = false := by
  rw [rowLt_false_iff] at h1 h2 ⊢
  rcases h1 with h1 | ⟨h1e, h1l⟩ <;> rcases h2 with h2 | ⟨h2e, h2l⟩
  · exact Or.inl (h1.trans h2)
  · exact Or.inl (by omega)
  · exact Or.inl (by omega)
  · exact Or.inr ⟨by omega, h1l.trans h2l⟩

theorem pairwise_blocks (adt : List AdtRow) :
    (blocks adt).Pairwise rowLe := by
  refine pairwise_dedupFirst ?_
  refine (pairwise_sortRows rowLt rowLt_asymm rowLt_negTrans _).imp ?_
  intro a b h
  exact (rowLt_false_iff b a).mp h

/-! ## Positional access to zipped pairs -/

theorem zip_getElem {α β : Type} :
    ∀ (a : List α) (b : List β) (i : ℕ) (p : α × β),
      (a.zip b)[i]? = some p → a[i]? = some p.1 ∧ b[i]? = some p.2
  | [], _, _, _ => by simp
  | _ :: _, [], _, _ => by simp
  | x :: xs, y :: ys, 0, p => by
    simp only [List.zip_cons_cons, List.getElem?_cons_zero, Option.some.injEq]
    intro h
    rw [← h]
    exact ⟨rfl, rfl⟩
  | x :: xs, y :: ys, i + 1, p => by
    simp only [List.zip_cons_cons, List.getElem?_cons_succ]
    exact zip_getElem xs ys i p

theorem mem_getElem {α : Type} (l : List α) (a : α) (h : a ∈ l) :
    ∃ i : ℕ, l[i]? = some a := by
  rcases List.mem_iff_getElem.mp h with ⟨i, hi, he⟩
  exact ⟨i, by rw [List.getElem?_eq_getElem hi, he]⟩

theorem pairwise_getElem? {α : Type} {R : α → α → Prop} {l : List α}
    (h : l.Pairwise R) (i j : ℕ) (x y : α) (hij : i < j)
    (hx : l[i]? = some x) (hy : l[j]? = some y) : R x y := by
  rcases List.getElem?_eq_some.mp hx with ⟨hilt, hxe⟩
  rcases List.getElem?_eq_some.mp hy with ⟨hjlt, hye⟩
  rw [← hxe, ← hye]
  exact List.pairwise_iff_getElem.mp h i j (by omega) hjlt hij

theorem pairwise_le_groupIdsFrom (n : ℕ) :
    ∀ fs : List Bool, (groupIdsFrom n fs).Pairwise (· ≤ ·)
  | [] => List.Pairwise.nil
  | f :: fs => by
    simp only [groupIdsFrom]
    refine List.pairwise_cons.mpr ⟨?_, pairwise_le_groupIdsFrom (n + 1) fs⟩
    intro b hb
    by_cases hf : f = true
    · simp only [hf, if_true]
      cases hrec : groupIdsFrom (n + 1) fs with
      | nil => rw [hrec] at hb; simp at hb
      | cons a rest =>
        simp only [hrec, List.headD_cons]
        rw [hrec] at hb
        have hpair := pairwise_le_groupIdsFrom (n + 1) fs
        rw [hrec] at hpair
        rcases List.mem_cons.mp hb with h | h
        · omega
        · exact (List.pairwise_cons.mp hpair).1 b h
    · have hf0 : f = false := by
        cases f
        · rfl
        · exact absurd rfl hf
      simp only [hf0, Bool.false_eq_true, if_false]
      exact le_of_lt (lt_of_mem_groupIdsFrom fs (n + 1) b hb)

/-! ## Aggregation lemmas -/

theorem foldl_min_le_init : ∀ (xs : List ℚ) (q : ℚ), xs.foldl min q ≤ q
  | [], q => le_refl q
  | x :: xs, q =>
    le_trans (foldl_min_le_init xs (min q x)) (min_le_left q x)

theorem foldl_min_mem :
    ∀ (xs : List ℚ) (q : ℚ), xs.foldl min q = q ∨ xs.foldl min q ∈ xs
  | [], _ => Or.inl rfl
  | x :: xs, q => by
    simp only [List.foldl_cons]
    rcases foldl_min_mem xs (min q x) with h | h
    · rcases min_choice q x with hm | hm
      · exact Or.inl (by rw [h, hm])
      · exact Or.inr (by rw [h, hm]; exact List.mem_cons_self x xs)
    · exact Or.inr (List.mem_cons_of_mem x h)

theorem foldl_min_le :
    ∀ (xs : List ℚ) (q x : ℚ), x ∈ xs → xs.foldl min q ≤ x
  | [], _, _, h => absurd h (List.not_mem_nil _)
  | y :: ys, q, x, h => by
    simp only [List.foldl_cons]
    rcases List.mem_cons.mp h with h1 | h1
    · subst h1
      exact le_trans (foldl_min_le_init ys (min q x)) (min_le_right q x)
    · exact foldl_min_le ys (min q y) x h1

theorem minQ_spec (l : List ℚ) (h : l ≠ []) :
    ∃ m, minQ l = some m ∧ m ∈ l ∧ ∀ x ∈ l, m ≤ x := by
  cases l with
  | nil => exact absurd rfl h
  | cons x xs =>
    refine ⟨xs.foldl min x, rfl, ?_, ?_⟩
    · rcases foldl_min_mem xs x with h1 | h1
      · rw [h1]; exact List.mem_cons_self x xs
      · exact List.mem_cons_of_mem x h1
    · intro y hy
      rcases List.mem_cons.mp hy with h1 | h1
      · rw [h1]; exact foldl_min_le_init xs x
      · exact foldl_min_le xs x y h1

theorem minIn_spec (l : List AdtRow) (h : l ≠ []) :
    ∃ m, minIn l = some m ∧ (∃ a ∈ l, a.in_dttm = m) ∧
      ∀ a ∈ l, m ≤ a.in_dttm := by
  have hmap : l.map (fun r => r.in_dttm) ≠ [] := by
    simp [List.map_eq_nil_iff, h]
  obtain ⟨m, hm, hmem, hle⟩ := minQ_spec (l.map (fun r => r.in_dttm)) hmap
  refine ⟨m, hm, ?_, ?_⟩
  · rcases List.mem_map.mp hmem with ⟨a, ha, he⟩
    exact ⟨a, ha, he⟩
  · intro a ha
    exact hle a.in_dttm (List.mem_map.mpr ⟨a, ha, rfl⟩)

theorem lastType_spec (l : List AdtRow) (h : l ≠ []) :
    lastType l = some ((l.getLast h).location_type) := by
  unfold lastType
  rw [List.getLast?_map, List.getLast?_eq_getLast l h]
  rfl

/-! ## Members of a group -/

theorem self_mem_membersOf (pairs : List (AdtRow × ℕ)) (p : AdtRow × ℕ)
    (hp : p ∈ pairs) :
    p.1 ∈ membersOf pairs p.1.encounter_block p.2 := by
  unfold membersOf
  refine List.mem_map.mpr ⟨p, ?_, rfl⟩
  refine List.mem_filter.mpr ⟨hp, ?_⟩
  simp

theorem mem_membersOf (pairs : List (AdtRow × ℕ)) (e g : ℕ) (a : AdtRow) :
    a ∈ membersOf pairs e g ↔ ((a, g) ∈ pairs ∧ a.encounter_block = e) := by
  unfold membersOf
  constructor
  · intro h
    rcases List.mem_map.mp h with ⟨q, hq, hqa⟩
    rcases List.mem_filter.mp hq with ⟨hqp, hcond⟩
    simp only [Bool.and_eq_true, beq_iff_eq] at hcond
    have hqeq : q = (a, g) := by
      calc q = (q.1, q.2) := rfl
        _ = (a, g) := by rw [hqa, hcond.2]
    constructor
    · rw [← hqeq]; exact hqp
    · rw [← hqa]; exact hcond.1
  · rintro ⟨hmem, henc⟩
    refine List.mem_map.mpr ⟨(a, g), ?_, rfl⟩
    refine List.mem_filter.mpr ⟨hmem, ?_⟩
    simp [henc]

theorem membersOf_ne_nil (pairs : List (AdtRow × ℕ)) (p : AdtRow × ℕ)
    (hp : p ∈ pairs) :
    membersOf pairs p.1.encounter_block p.2 ≠ [] := by
  intro hnil
  have := self_mem_membersOf pairs p hp
  rw [hnil] at this
  exact List.not_mem_nil _ this

/-! ## Output rows are determined by their (encounter, group) key -/

theorem outOf_encounter (pairs : List (AdtRow × ℕ)) (p : AdtRow × ℕ) :
    (outOf pairs p).encounter_block = p.1.encounter_block := rfl

theorem outOf_group (pairs : List (AdtRow × ℕ)) (p : AdtRow × ℕ) :
    (outOf pairs p).icu_group = p.2 := rfl

theorem outOf_eq_of_key (pairs : List (AdtRow × ℕ)) (p q : AdtRow × ℕ)
    (hp : p ∈ pairs) (hq : q ∈ pairs)
    (henc : p.1.encounter_block = q.1.encounter_block) (hg : p.2 = q.2) :
    outOf pairs p = outOf pairs q := by
  have hmem : membersOf pairs p.1.encounter_block p.2 =
      membersOf pairs q.1.encounter_block q.2 := by rw [henc, hg]
  have hne : membersOf pairs p.1.encounter_block p.2 ≠ [] :=
    membersOf_ne_nil pairs p hp
  obtain ⟨m, hm, _, _⟩ := minIn_spec _ hne
  have hlast := lastType_spec _ hne
  unfold outOf
  simp only [hmem] at hm hlast ⊢
  rw [OutRow.mk.injEq]
  refine ⟨henc, hg, by rw [henc, hg], ?_, rfl, ?_⟩
  · rw [hm]
    rfl
  · rw [hlast]
    rfl

theorem mem_stitch (adt : List AdtRow) (gap_hours : ℚ) (r : OutRow) :
    r ∈ stitch_icu_stays adt gap_hours ↔
      ∃ p ∈ stitchPairs adt gap_hours,
        r = outOf (stitchPairs adt gap_hours) p := by
  unfold stitch_icu_stays
  rw [List.mem_map]
  constructor
  · rintro ⟨p, hp, he⟩
    exact ⟨p, hp, he.symm⟩
  · rintro ⟨p, hp, he⟩
    exact ⟨p, hp, he.symm⟩

theorem length_stitch (adt : List AdtRow) (gap_hours : ℚ) :
    (stitch_icu_stays adt gap_hours).length = (blocks adt).length := by
  unfold stitch_icu_stays stitchPairs
  rw [List.length_map, List.length_zip, stitchGids,
    length_groupIdsFrom, length_linkFlags]
  exact Nat.min_self _

/-! ## Claim C10: null location_category rows are dropped silently -/

theorem blocks_filter (adt : List AdtRow) :
    blocks (adt.filter isIcuRow) = blocks adt := by
  unfold blocks
  congr 1
  congr 1
  rw [List.filter_filter]
  apply List.filter_congr
  intro a _
  simp

theorem stitch_filter_invariant (adt : List AdtRow) (gap_hours : ℚ) :
    stitch_icu_stays (adt.filter isIcuRow) gap_hours =
      stitch_icu_stays adt gap_hours := by
  unfold stitch_icu_stays stitchPairs stitchGids
  rw [blocks_filter]

/-- Claim C10: an input row with null `location_category` is dropped by
the initial filter without an error and contributes to nothing: the
stitcher output is computed entirely from the rows passing the filter,
and the filter accepts exactly the rows whose lower-cased category is
"icu" or "stepdown" (a null category is rejected). -/
theorem c10_null_category_filter (adt : List AdtRow) (gap_hours : ℚ)
    (r : AdtRow) :
    stitch_icu_stays adt gap_hours =
        stitch_icu_stays (adt.filter isIcuRow) gap_hours ∧
      (r.location_category = none → isIcuRow r = false) ∧
      (isIcuRow r = true ↔ ∃ s, r.location_category = some s ∧
        (strLower s = "icu" ∨ strLower s = "stepdown")) := by
  refine ⟨(stitch_filter_invariant adt gap_hours).symm, ?_, ?_⟩
  · intro h
    simp [isIcuRow, h]
  · cases hc : r.location_category with
    | none => simp [isIcuRow, hc]
    | some s => simp [isIcuRow, hc]

/-- Witness for C10: a concrete null-category row is rejected by the
filter. -/
theorem c10_null_category_filter_witness :
    isIcuRow ⟨0, 1, 0, 5, some 5, none, "z"⟩ = false :=
  ((c10_null_category_filter [] 6 ⟨0, 1, 0, 5, some 5, none, "z"⟩).2.1) rfl

/-! ## Claim C9: null timestamps -/

/-- Counterexample to C9 as stated: the row with null `out_dttm` is NOT
excluded from the computation — it forms its own group and produces an
output row (with a null aggregated `out_dttm`). -/
theorem c9_counterexample :
    stitch_icu_stays [rowN] 6 = [⟨1, 1, 1, 5, none, "x"⟩] := by
  norm_num [stitch_icu_stays, stitchPairs, stitchGids, blocks, sortRows,
    insertRow, dedupFirst, rowLt, isIcuRow, strLower, linkFlags, linkedTo,
    groupIdsFrom, outOf, membersOf, minIn, minQ, maxOut, maxQ, List.filterMap_cons, List.filterMap_nil, lastType,
    finalRank, rowN]

/-- Claim C9 (amended): a null `out_dttm` never links a segment to its
successor (the NaN gap comparison defaults to false), but the offending
row is not excluded from the output: every retained segment, with or
without a null `out_dttm`, produces exactly one output row. -/
theorem c9_null_never_links (gap_hours : ℚ) (r s : AdtRow)
    (adt : List AdtRow) (h : r.out_dttm = none) :
    linkedTo gap_hours r s = false ∧
      (stitch_icu_stays adt gap_hours).length = (blocks adt).length := by
  refine ⟨?_, length_stitch adt gap_hours⟩
  simp [linkedTo, h]

/-- Witness for C9 (amended) at the concrete null-out row. -/
theorem c9_null_never_links_witness :
    linkedTo 6 rowN rowB = false ∧
      (stitch_icu_stays [rowN] 6).length = (blocks [rowN]).length :=
  c9_null_never_links 6 rowN rowB [rowN] rfl

/-! ## Claim C1: rows per (encounter, group) -/

/-- Counterexample to C1 as stated: two segments merged into one group
produce two output rows with the same (encounter_block, icu_group). -/
theorem c1_counterexample :
    (stitch_icu_stays [rowA, rowB] 6).map
      (fun r => (r.encounter_block, r.icu_group)) = [(1, 2), (1, 2)] := by
  norm_num [stitch_icu_stays, stitchPairs, stitchGids, blocks, sortRows,
    insertRow, dedupFirst, rowLt, isIcuRow, strLower, linkFlags, linkedTo,
    groupIdsFrom, outOf, membersOf, minIn, minQ, maxOut, maxQ, List.filterMap_cons, List.filterMap_nil, lastType,
    finalRank, rowA, rowB]

/-- Claim C1 (amended): the output has one row per retained
(filtered, deduplicated) input segment — not one per group — but any
two output rows sharing (encounter_block, icu_group) are exactly equal,
so the distinct output rows are one per group. -/
theorem c1_rows_determined_by_group (adt : List AdtRow) (gap_hours : ℚ)
    (r s : OutRow) (hr : r ∈ stitch_icu_stays adt gap_hours)
    (hs : s ∈ stitch_icu_stays adt gap_hours)
    (henc : r.encounter_block = s.encounter_block)
    (hg : r.icu_group = s.icu_group) :
    r = s ∧
      (stitch_icu_stays adt gap_hours).length = (blocks adt).length := by
  refine ⟨?_, length_stitch adt gap_hours⟩
  rcases (mem_stitch adt gap_hours r).mp hr with ⟨p, hp, hpe⟩
  rcases (mem_stitch adt gap_hours s).mp hs with ⟨q, hq, hqe⟩
  subst hpe
  subst hqe
  exact outOf_eq_of_key _ p q hp hq henc hg

/-- Witness for C1 (amended) on a one-row table. -/
theorem c1_rows_determined_by_group_witness :
    (⟨1, 1, 1, 0, some 1, "a"⟩ : OutRow) = ⟨1, 1, 1, 0, some 1, "a"⟩ ∧
      (stitch_icu_stays [rowA] 6).length = (blocks [rowA]).length :=
  c1_rows_determined_by_group [rowA] 6 ⟨1, 1, 1, 0, some 1, "a"⟩
    ⟨1, 1, 1, 0, some 1, "a"⟩
    (by norm_num [stitch_icu_stays, stitchPairs, stitchGids, blocks, sortRows,
      insertRow, dedupFirst, rowLt, isIcuRow, strLower, linkFlags, linkedTo,
      groupIdsFrom, outOf, membersOf, minIn, minQ, maxOut, maxQ, List.filterMap_cons, List.filterMap_nil, lastType,
      finalRank, rowA])
    (by norm_num [stitch_icu_stays, stitchPairs, stitchGids, blocks, sortRows,
      insertRow, dedupFirst, rowLt, isIcuRow, strLower, linkFlags, linkedTo,
      groupIdsFrom, outOf, membersOf, minIn, minQ, maxOut, maxQ, List.filterMap_cons, List.filterMap_nil, lastType,
      finalRank, rowA])
    rfl rfl

/-! ## Rank machinery -/

/-- The distinct group ids of one encounter, in frame order (which is
also ascending order). -/
def encGids (adt : List AdtRow) (gap_hours : ℚ) (e : ℕ) : List ℕ :=
  dedupFirst (((stitchPairs adt gap_hours).filter
    (fun q => q.1.encounter_block == e)).map (fun q => q.2))

/-- The number of merged groups of one encounter. -/
def numGroups (adt : List AdtRow) (gap_hours : ℚ) (e : ℕ) : ℕ :=
  (encGids adt gap_hours e).length

theorem pairwise_le_stitchGids (adt : List AdtRow) (gap_hours : ℚ) :
    (stitchGids adt gap_hours).Pairwise (· ≤ ·) :=
  pairwise_le_groupIdsFrom 0 _

theorem pairwise_zip_snd {α : Type} (a : List α) (b : List ℕ)
    (hb : b.Pairwise (· ≤ ·)) :
    (a.zip b).Pairwise (fun p q => p.2 ≤ q.2) := by
  refine List.pairwise_iff_getElem.mpr ?_
  intro i j hi hj hij
  have hpi : (a.zip b)[i]? = some (a.zip b)[i] := List.getElem?_eq_getElem hi
  have hpj : (a.zip b)[j]? = some (a.zip b)[j] := List.getElem?_eq_getElem hj
  obtain ⟨_, hbi⟩ := zip_getElem a b i _ hpi
  obtain ⟨_, hbj⟩ := zip_getElem a b j _ hpj
  exact pairwise_getElem? hb i j _ _ hij hbi hbj

theorem pairwise_le_pairs_snd (adt : List AdtRow) (gap_hours : ℚ) :
    (stitchPairs adt gap_hours).Pairwise (fun p q => p.2 ≤ q.2) :=
  pairwise_zip_snd _ _ (pairwise_le_stitchGids adt gap_hours)

theorem pairwise_lt_encGids (adt : List AdtRow) (gap_hours : ℚ) (e : ℕ) :
    (encGids adt gap_hours e).Pairwise (· < ·) := by
  have h1 : ((stitchPairs adt gap_hours).filter
      (fun q => q.1.encounter_block == e)).Pairwise
      (fun p q => p.2 ≤ q.2) :=
    (pairwise_le_pairs_snd adt gap_hours).sublist (List.filter_sublist _)
  have h2 : (((stitchPairs adt gap_hours).filter
      (fun q => q.1.encounter_block == e)).map (fun q => q.2)).Pairwise
      (· ≤ ·) := List.pairwise_map.mpr h1
  have h3 := pairwise_dedupFirst h2
  have h4 : (encGids adt gap_hours e).Nodup := nodup_dedupFirst _
  refine (h3.and h4).imp ?_
  intro a b hab
  exact lt_of_le_of_ne hab.1 hab.2

/-- Frame order respects group order: a pair with a smaller group id
precedes (in the row order) every pair with a larger one. -/
theorem pairs_rowLe (adt : List AdtRow) (gap_hours : ℚ) (a b : AdtRow)
    (g g2 : ℕ) (ha : (a, g) ∈ stitchPairs adt gap_hours)
    (hb : (b, g2) ∈ stitchPairs adt gap_hours) (hg : g < g2) :
    rowLe a b := by
  obtain ⟨i, hi⟩ := mem_getElem _ _ ha
  obtain ⟨j, hj⟩ := mem_getElem _ _ hb
  obtain ⟨hia, hig⟩ := zip_getElem _ _ i _ hi
  obtain ⟨hja, hjg⟩ := zip_getElem _ _ j _ hj
  have hij : i < j := by
    by_contra hle
    push_neg at hle
    rcases Nat.lt_or_ge j i with hji | hji
    · have := pairwise_getElem? (pairwise_le_stitchGids adt gap_hours)
        j i g2 g hji hjg hig
      omega
    · have : i = j := by omega
      subst this
      rw [hig] at hjg
      have : g = g2 := Option.some.inj hjg
      omega
  exact pairwise_getElem? (pairwise_blocks adt) i j a b hij hia hja

/-- The aggregated `in_dttm` is monotone across the groups of an
encounter. -/
theorem out_in_mono (adt : List AdtRow) (gap_hours : ℚ)
    (p q : AdtRow × ℕ) (hp : p ∈ stitchPairs adt gap_hours)
    (hq : q ∈ stitchPairs adt gap_hours)
    (henc : p.1.encounter_block = q.1.encounter_block) (hg : p.2 < q.2) :
    (outOf (stitchPairs adt gap_hours) p).in_dttm ≤
      (outOf (stitchPairs adt gap_hours) q).in_dttm := by
  have hpne := membersOf_ne_nil _ p hp
  have hqne := membersOf_ne_nil _ q hq
  obtain ⟨mp, hmp, ⟨ap, hap, hape⟩, _⟩ := minIn_spec _ hpne
  obtain ⟨mq, hmq, ⟨aq, haq, haqe⟩, _⟩ := minIn_spec _ hqne
  have hrp : (outOf (stitchPairs adt gap_hours) p).in_dttm = mp := by
    unfold outOf
    simp only [hmp]
    rfl
  have hrq : (outOf (stitchPairs adt gap_hours) q).in_dttm = mq := by
    unfold outOf
    simp only [hmq]
    rfl
  rcases (mem_membersOf _ _ _ ap).mp hap with ⟨happ, hapenc⟩
  rcases (mem_membersOf _ _ _ aq).mp haq with ⟨haqp, haqenc⟩
  have hle : rowLe ap aq := pairs_rowLe adt gap_hours ap aq p.2 q.2 happ haqp hg
  have henc2 : ap.encounter_block = aq.encounter_block := by
    rw [hapenc, haqenc, henc]
  have hin : ap.in_dttm ≤ aq.in_dttm := by
    rcases hle with h | ⟨_, h⟩
    · rw [henc2] at h
      exact absurd h (lt_irrefl _)
    · exact h
  rw [hrp, hrq, ← hape, ← haqe]
  exact hin

/-! ## Formula for the re-derived rank -/

theorem finalRank_formula (adt : List AdtRow) (gap_hours : ℚ) (e g : ℕ) :
    finalRank (stitchPairs adt gap_hours) e g =
      ((encGids adt gap_hours e).filter
        (fun x => decide (x < g))).length + 1 := by
  unfold finalRank encGids
  rw [← filter_dedupFirst]
  congr 2
  rw [List.filter_map]
  congr 1
  rw [List.filter_filter]
  congr 1
  apply List.filter_congr
  intro q _
  simp only [Function.comp]
  cases hqe : (q.1.encounter_block == e) <;>
    cases hql : (decide (q.2 < g)) <;> simp [hqe, hql]

theorem filterLt_len_of_getElem :
    ∀ (L : List ℕ), L.Pairwise (· < ·) → ∀ (j : ℕ) (g : ℕ),
      L[j]? = some g → (L.filter (fun x => decide (x < g))).length = j
  | [], _, j, g => by simp
  | a :: L2, hL, 0, g => by
    intro hg
    have hga : a = g := by simpa using hg
    rcases List.pairwise_cons.mp hL with ⟨hall, _⟩
    have h1 : (a :: L2).filter (fun x => decide (x < g)) = [] := by
      apply List.filter_eq_nil_iff.mpr
      intro x hx
      simp only [decide_eq_true_iff]
      rcases List.mem_cons.mp hx with h | h
      · omega
      · have := hall x h
        omega
    rw [h1]
    rfl
  | a :: L2, hL, j + 1, g => by
    intro hg
    rw [List.getElem?_cons_succ] at hg
    rcases List.pairwise_cons.mp hL with ⟨hall, hL2⟩
    have hgm : g ∈ L2 := List.getElem?_mem hg
    have hag : a < g := hall g hgm
    simp only [List.filter_cons, decide_eq_true_iff]
    rw [if_pos hag]
    simp only [List.length_cons]
    rw [filterLt_len_of_getElem L2 hL2 j g hg]

theorem filterLt_len_lt_iff (L : List ℕ) (hL : L.Pairwise (· < ·))
    (g g2 : ℕ) (hg : g ∈ L) (hg2 : g2 ∈ L) :
    ((L.filter (fun x => decide (x < g))).length <
      (L.filter (fun x => decide (x < g2))).length ↔ g < g2) := by
  obtain ⟨i, hi⟩ := mem_getElem L g hg
  obtain ⟨j, hj⟩ := mem_getElem L g2 hg2
  rw [filterLt_len_of_getElem L hL i g hi,
    filterLt_len_of_getElem L hL j g2 hj]
  constructor
  · intro hij
    exact pairwise_getElem? hL i j g g2 hij hi hj
  · intro hgg
    rcases Nat.lt_trichotomy i j with h | h | h
    · exact h
    · subst h
      rw [hi] at hj
      have := Option.some.inj hj
      omega
    · have := pairwise_getElem? hL j i g2 g h hj hi
      omega

theorem gid_mem_encGids (adt : List AdtRow) (gap_hours : ℚ)
    (p : AdtRow × ℕ) (hp : p ∈ stitchPairs adt gap_hours) :
    p.2 ∈ encGids adt gap_hours p.1.encounter_block := by
  unfold encGids
  rw [mem_dedupFirst]
  refine List.mem_map.mpr ⟨p, ?_, rfl⟩
  refine List.mem_filter.mpr ⟨hp, ?_⟩
  simp

theorem mem_encGids (adt : List AdtRow) (gap_hours : ℚ) (e g : ℕ) :
    g ∈ encGids adt gap_hours e ↔
      ∃ p ∈ stitchPairs adt gap_hours,
        p.1.encounter_block = e ∧ p.2 = g := by
  unfold encGids
  rw [mem_dedupFirst]
  constructor
  · intro h
    rcases List.mem_map.mp h with ⟨q, hq, hqg⟩
    rcases List.mem_filter.mp hq with ⟨hqp, hcond⟩
    exact ⟨q, hqp, by simpa using hcond, hqg⟩
  · rintro ⟨p, hp, he, hg⟩
    refine List.mem_map.mpr ⟨p, ?_, hg⟩
    refine List.mem_filter.mpr ⟨hp, by simp [he]⟩

/-- The re-derived rank is strictly monotone in the group id, within an
encounter. -/
theorem rank_lt_iff (adt : List AdtRow) (gap_hours : ℚ) (e : ℕ)
    (p q : AdtRow × ℕ) (hp : p ∈ stitchPairs adt gap_hours)
    (hq : q ∈ stitchPairs adt gap_hours)
    (hpe : p.1.encounter_block = e) (hqe : q.1.encounter_block = e) :
    (finalRank (stitchPairs adt gap_hours) e p.2 <
      finalRank (stitchPairs adt gap_hours) e q.2 ↔ p.2 < q.2) := by
  rw [finalRank_formula, finalRank_formula]
  have hpm : p.2 ∈ encGids adt gap_hours e := by
    rw [← hpe]
    exact gid_mem_encGids adt gap_hours p hp
  have hqm : q.2 ∈ encGids adt gap_hours e := by
    rw [← hqe]
    exact gid_mem_encGids adt gap_hours q hq
  have := filterLt_len_lt_iff (encGids adt gap_hours e)
    (pairwise_lt_encGids adt gap_hours e) p.2 q.2 hpm hqm
  omega

/-! ## Claim C2: ordering of output rows -/

/-- Counterexample to C2 as stated: a long first segment makes the
rank-1 group interval [0, 100] overlap the rank-2 interval [50, 60];
and with gap 0 two zero-length segments at the same instant give two
ranks with equal (not strictly increasing) in_dttm. -/
theorem c2_counterexample :
    (∃ r ∈ stitch_icu_stays [rowO1, rowO2, rowO3] 6,
      ∃ s ∈ stitch_icu_stays [rowO1, rowO2, rowO3] 6,
        r.encounter_block = s.encounter_block ∧ r.icu_rank < s.icu_rank ∧
          ∃ o : ℚ, r.out_dttm = some o ∧ s.in_dttm < o) ∧
      (∃ r ∈ stitch_icu_stays [rowT1, rowT2] 0,
        ∃ s ∈ stitch_icu_stays [rowT1, rowT2] 0,
          r.encounter_block = s.encounter_block ∧ r.icu_rank < s.icu_rank ∧
            r.in_dttm = s.in_dttm) := by
  have h1 : stitch_icu_stays [rowO1, rowO2, rowO3] 6 =
      [⟨1, 2, 1, 0, some 100, "b"⟩, ⟨1, 2, 1, 0, some 100, "b"⟩,
        ⟨1, 3, 2, 50, some 60, "c"⟩] := by
    norm_num [stitch_icu_stays, stitchPairs, stitchGids, blocks, sortRows,
      insertRow, dedupFirst, rowLt, isIcuRow, strLower, linkFlags, linkedTo,
      groupIdsFrom, outOf, membersOf, minIn, minQ, maxOut, maxQ,
      List.filterMap_cons, List.filterMap_nil, lastType, finalRank,
      rowO1, rowO2, rowO3]
  have h2 : stitch_icu_stays [rowT1, rowT2] 0 =
      [⟨1, 1, 1, 5, some 5, "d"⟩, ⟨1, 2, 2, 5, some 5, "e"⟩] := by
    norm_num [stitch_icu_stays, stitchPairs, stitchGids, blocks, sortRows,
      insertRow, dedupFirst, rowLt, isIcuRow, strLower, linkFlags, linkedTo,
      groupIdsFrom, outOf, membersOf, minIn, minQ, maxOut, maxQ,
      List.filterMap_cons, List.filterMap_nil, lastType, finalRank,
      rowT1, rowT2]
  constructor
  · rw [h1]
    refine ⟨⟨1, 2, 1, 0, some 100, "b"⟩, by simp,
      ⟨1, 3, 2, 50, some 60, "c"⟩, by simp, rfl, by norm_num, 100, rfl,
      by norm_num⟩
  · rw [h2]
    refine ⟨⟨1, 1, 1, 5, some 5, "d"⟩, by simp,
      ⟨1, 2, 2, 5, some 5, "e"⟩, by simp, rfl, by norm_num, rfl⟩

/-- Claim C2 (amended): within an encounter, output rows ordered by
`icu_rank` have non-decreasing (not necessarily strictly increasing)
`in_dttm`; the aggregated `[in_dttm, out_dttm]` intervals may overlap. -/
theorem c2_rank_in_monotone (adt : List AdtRow) (gap_hours : ℚ)
    (r s : OutRow) (hr : r ∈ stitch_icu_stays adt gap_hours)
    (hs : s ∈ stitch_icu_stays adt gap_hours)
    (henc : r.encounter_block = s.encounter_block)
    (hrank : r.icu_rank < s.icu_rank) :
    r.in_dttm ≤ s.in_dttm := by
  rcases (mem_stitch adt gap_hours r).mp hr with ⟨p, hp, hpe⟩
  rcases (mem_stitch adt gap_hours s).mp hs with ⟨q, hq, hqe⟩
  subst hpe
  subst hqe
  have henc2 : p.1.encounter_block = q.1.encounter_block := henc
  have hiff := rank_lt_iff adt gap_hours q.1.encounter_block p q hp hq
    henc2 rfl
  have hrank2 : finalRank (stitchPairs adt gap_hours)
      q.1.encounter_block p.2 <
      finalRank (stitchPairs adt gap_hours) q.1.encounter_block q.2 := by
    have e1 : (outOf (stitchPairs adt gap_hours) p).icu_rank =
        finalRank (stitchPairs adt gap_hours) p.1.encounter_block p.2 := rfl
    rw [e1, henc2] at hrank
    exact hrank
  exact out_in_mono adt gap_hours p q hp hq henc2 (hiff.mp hrank2)

/-- Witness for C2 (amended) on the two-group example: rank 1 comes
with an earlier (here equal-or-smaller) start. -/
theorem c2_rank_in_monotone_witness :
    (⟨1, 2, 1, 0, some 100, "b"⟩ : OutRow).in_dttm ≤
      (⟨1, 3, 2, 50, some 60, "c"⟩ : OutRow).in_dttm :=
  c2_rank_in_monotone [rowO1, rowO2, rowO3] 6
    ⟨1, 2, 1, 0, some 100, "b"⟩ ⟨1, 3, 2, 50, some 60, "c"⟩
    (by norm_num [stitch_icu_stays, stitchPairs, stitchGids, blocks, sortRows,
      insertRow, dedupFirst, rowLt, isIcuRow, strLower, linkFlags, linkedTo,
      groupIdsFrom, outOf, membersOf, minIn, minQ, maxOut, maxQ,
      List.filterMap_cons, List.filterMap_nil, lastType, finalRank,
      rowO1, rowO2, rowO3])
    (by norm_num [stitch_icu_stays, stitchPairs, stitchGids, blocks, sortRows,
      insertRow, dedupFirst, rowLt, isIcuRow, strLower, linkFlags, linkedTo,
      groupIdsFrom, outOf, membersOf, minIn, minQ, maxOut, maxQ,
      List.filterMap_cons, List.filterMap_nil, lastType, finalRank,
      rowO1, rowO2, rowO3])
    rfl (by norm_num)

/-! ## Claim C3: the aggregated location_type -/

/-- Counterexample to C3 as stated: the merged group {rowO1, rowO2} has
its maximal out_dttm (100) on rowO1 whose location_type is "a", yet the
output carries "b" (the type of the last member in rank order). -/
theorem c3_counterexample :
    (stitch_icu_stays [rowO1, rowO2] 6).map (fun r => r.location_type) =
        ["b", "b"] ∧
      membersOf (stitchPairs [rowO1, rowO2] 6) 1 2 = [rowO1, rowO2] ∧
      rowO1.out_dttm = some 100 ∧ rowO2.out_dttm = some 2 ∧
      rowO1.location_type = "a" ∧ ¬ (("a" : String) = "b") := by
  refine ⟨?_, ?_, rfl, rfl, rfl, by decide⟩
  · norm_num [stitch_icu_stays, stitchPairs, stitchGids, blocks, sortRows,
      insertRow, dedupFirst, rowLt, isIcuRow, strLower, linkFlags, linkedTo,
      groupIdsFrom, outOf, membersOf, minIn, minQ, maxOut, maxQ,
      List.filterMap_cons, List.filterMap_nil, lastType, finalRank,
      rowO1, rowO2]
  · norm_num [stitchPairs, stitchGids, blocks, sortRows,
      insertRow, dedupFirst, rowLt, isIcuRow, strLower, linkFlags, linkedTo,
      groupIdsFrom, membersOf, rowO1, rowO2]

/-- Claim C3 (amended): every output row's `location_type` is the
`location_type` of the LAST member segment of its group in rank (frame)
order — the `aggfunc='last'` of the source — which need not be the
member with the latest `out_dttm`. -/
theorem c3_location_type_last_member (adt : List AdtRow) (gap_hours : ℚ)
    (r : OutRow) (hr : r ∈ stitch_icu_stays adt gap_hours) :
    ∃ mem : List AdtRow, ∃ hne : mem ≠ [],
      mem = membersOf (stitchPairs adt gap_hours) r.encounter_block
          r.icu_group ∧
        r.location_type = (mem.getLast hne).location_type := by
  rcases (mem_stitch adt gap_hours r).mp hr with ⟨p, hp, hpe⟩
  subst hpe
  have hne := membersOf_ne_nil _ p hp
  refine ⟨membersOf (stitchPairs adt gap_hours) p.1.encounter_block p.2,
    hne, rfl, ?_⟩
  have hlast := lastType_spec _ hne
  show (outOf (stitchPairs adt gap_hours) p).location_type = _
  unfold outOf
  simp only [hlast]
  rfl

/-- Witness for C3 (amended) on a one-row table. -/
theorem c3_location_type_last_member_witness :
    ∃ mem : List AdtRow, ∃ hne : mem ≠ [],
      mem = membersOf (stitchPairs [rowA] 6)
          (⟨1, 1, 1, 0, some 1, "a"⟩ : OutRow).encounter_block
          (⟨1, 1, 1, 0, some 1, "a"⟩ : OutRow).icu_group ∧
        (⟨1, 1, 1, 0, some 1, "a"⟩ : OutRow).location_type =
          (mem.getLast hne).location_type :=
  c3_location_type_last_member [rowA] 6 ⟨1, 1, 1, 0, some 1, "a"⟩
    (by norm_num [stitch_icu_stays, stitchPairs, stitchGids, blocks, sortRows,
      insertRow, dedupFirst, rowLt, isIcuRow, strLower, linkFlags, linkedTo,
      groupIdsFrom, outOf, membersOf, minIn, minQ, maxOut, maxQ,
      List.filterMap_cons, List.filterMap_nil, lastType, finalRank, rowA])

/-! ## Claim C7: rank density and ordering -/

/-- Claim C7: for every encounter the `icu_rank` values of its output
rows are exactly {1, ..., k}, k being the number of merged groups of
the encounter, and ranks are ordered by the group's aggregated
`in_dttm` with `icu_group` breaking ties. -/
theorem c7_rank_density (adt : List AdtRow) (gap_hours : ℚ) (e : ℕ) :
    (∀ r ∈ stitch_icu_stays adt gap_hours, r.encounter_block = e →
      1 ≤ r.icu_rank ∧ r.icu_rank ≤ numGroups adt gap_hours e) ∧
      (∀ j : ℕ, 1 ≤ j → j ≤ numGroups adt gap_hours e →
        ∃ r ∈ stitch_icu_stays adt gap_hours,
          r.encounter_block = e ∧ r.icu_rank = j) ∧
      (∀ r ∈ stitch_icu_stays adt gap_hours,
        ∀ s ∈ stitch_icu_stays adt gap_hours,
          r.encounter_block = e → s.encounter_block = e →
          (r.icu_rank < s.icu_rank ↔
            (r.in_dttm < s.in_dttm ∨
              (r.in_dttm = s.in_dttm ∧ r.icu_group < s.icu_group)))) := by
  have hrankeq : ∀ u : AdtRow × ℕ, u.1.encounter_block = e →
      (outOf (stitchPairs adt gap_hours) u).icu_rank =
        finalRank (stitchPairs adt gap_hours) e u.2 := by
    intro u hu
    show finalRank (stitchPairs adt gap_hours) u.1.encounter_block u.2 = _
    rw [hu]
  refine ⟨?_, ?_, ?_⟩
  · intro r hr hre
    rcases (mem_stitch adt gap_hours r).mp hr with ⟨p, hp, hpe⟩
    subst hpe
    have hre2 : p.1.encounter_block = e := hre
    have hmem : p.2 ∈ encGids adt gap_hours e := by
      rw [← hre2]
      exact gid_mem_encGids adt gap_hours p hp
    obtain ⟨i, hi⟩ := mem_getElem _ _ hmem
    have hcount := filterLt_len_of_getElem (encGids adt gap_hours e)
      (pairwise_lt_encGids adt gap_hours e) i p.2 hi
    have hilt : i < numGroups adt gap_hours e :=
      (List.getElem?_eq_some.mp hi).1
    rw [hrankeq p hre2, finalRank_formula, hcount]
    omega
  · intro j hj1 hjk
    have hidx : j - 1 < (encGids adt gap_hours e).length := by
      unfold numGroups at hjk
      omega
    set g := (encGids adt gap_hours e).get ⟨j - 1, hidx⟩ with hgdef
    have hg? : (encGids adt gap_hours e)[j - 1]? = some g := by
      rw [List.getElem?_eq_getElem hidx]
      rfl
    have hgm : g ∈ encGids adt gap_hours e := List.getElem?_mem hg?
    rcases (mem_encGids adt gap_hours e g).mp hgm with ⟨p, hp, hpe, hpg⟩
    refine ⟨outOf (stitchPairs adt gap_hours) p, ?_, hpe, ?_⟩
    · exact List.mem_map.mpr ⟨p, hp, rfl⟩
    · rw [hrankeq p hpe, finalRank_formula, hpg,
        filterLt_len_of_getElem (encGids adt gap_hours e)
          (pairwise_lt_encGids adt gap_hours e) (j - 1) g hg?]
      omega
  · intro r hr s hs hre hse
    rcases (mem_stitch adt gap_hours r).mp hr with ⟨p, hp, hpe⟩
    rcases (mem_stitch adt gap_hours s).mp hs with ⟨q, hq, hqe⟩
    subst hpe
    subst hqe
    have hre2 : p.1.encounter_block = e := hre
    have hse2 : q.1.encounter_block = e := hse
    have henc2 : p.1.encounter_block = q.1.encounter_block := by
      rw [hre2, hse2]
    have hiff := rank_lt_iff adt gap_hours e p q hp hq hre2 hse2
    rw [hrankeq p hre2, hrankeq q hse2]
    constructor
    · intro hrank
      have hgid : p.2 < q.2 := hiff.mp hrank
      have hin := out_in_mono adt gap_hours p q hp hq henc2 hgid
      rcases lt_or_eq_of_le hin with h | h
      · exact Or.inl h
      · exact Or.inr ⟨h, hgid⟩
    · intro hlex
      rcases hlex with hlt | ⟨hineq, hglt⟩
      · rcases Nat.lt_trichotomy p.2 q.2 with h | h | h
        · exact hiff.mpr h
        · have heq : outOf (stitchPairs adt gap_hours) p =
              outOf (stitchPairs adt gap_hours) q :=
            outOf_eq_of_key _ p q hp hq henc2 h
          rw [heq] at hlt
          exact absurd hlt (lt_irrefl _)
        · have hin := out_in_mono adt gap_hours q p hq hp henc2.symm h
          exact absurd hlt (not_lt_of_le hin)
      · exact hiff.mpr hglt

/-- Witness for C7 on the two-row, one-group example: rank 1 is
attained. -/
theorem c7_rank_density_witness :
    ∃ r ∈ stitch_icu_stays [rowA, rowB] 6,
      r.encounter_block = 1 ∧ r.icu_rank = 1 :=
  ((c7_rank_density [rowA, rowB] 6 1).2.1) 1 (le_refl 1)
    (by norm_num [numGroups, encGids, stitchPairs, stitchGids, blocks,
      sortRows, insertRow, dedupFirst, rowLt, isIcuRow, strLower, linkFlags,
      linkedTo, groupIdsFrom, rowA, rowB])

end VapOnset
